import Mathlib

/-!
Verification of the VFS path algebra of `crates/vfs/src/lib.rs`: the default
path operations of the `VfsHandler` trait and the free function
`path_relative_to`.  Paths are embedded as `List Char`; the `cfg!(target_os =
"windows")` compile-time branches become an explicit `windows : Bool`
parameter; `std::path::Path` component parsing and joining are embedded with
their Unix semantics (the separator-dependent claims are exercised with the
`'/'` separator, as in the crate's own tests).
-/

set_option autoImplicit false

namespace Vfs

/-- `s.data` of a string literal, for readable concrete test paths. -/
def chars (s : String) : List Char := s.data

/-- `std::path::MAIN_SEPARATOR`: `'\'` on Windows, `'/'` elsewhere. -/
def mainSeparator (windows : Bool) : Char := if windows then '\\' else '/'

/-- `str::strip_suffix` with a one-character pattern. -/
def stripSuffixChar (c : Char) (s : List Char) : Option (List Char) :=
  match s.getLast? with
  | some a => if a = c then some s.dropLast else none
  | none => none

/-- `VfsHandler::strip_separator_suffix` (lib.rs lines 64-70): try the platform
separator, and on Windows additionally fall back to `'/'`. -/
def strip_separator_suffix (windows : Bool) (s : List Char) : Option (List Char) :=
  let result := stripSuffixChar (mainSeparator windows) s
  if windows then
    match result with
    | some r => some r
    | none => stripSuffixChar '/' s
  else result

/-- `VfsHandler::unchecked_abs_path` (lib.rs lines 96-101): strip one trailing
separator if present, then wrap.  `AbsPath::new_arc` lives in the (absent)
`path.rs`; modelled from the spec: it wraps the string with no validation and
no modification, so here it is the identity. -/
def unchecked_abs_path (windows : Bool) (s : List Char) : List Char :=
  match strip_separator_suffix windows s with
  | some newRootPath => newRootPath
  | none => s

/-- `VfsHandler::unchecked_abs_path_from_uri` (lib.rs lines 103-105): calls
`AbsPath::new_arc` directly, with no stripping.  Modelled from the spec:
`AbsPath::new_arc` wraps the string unchanged. -/
def unchecked_abs_path_from_uri (s : List Char) : List Char := s

/-- `VfsHandler::is_case_sensitive` (lib.rs lines 115-117): literally
`cfg!(target_os = "windows")`. -/
def is_case_sensitive (windows : Bool) : Bool := windows

/-- `str::find` for a one-character pattern: index of the first occurrence. -/
def findChar (c : Char) : List Char → Option Nat
  | [] => none
  | a :: rest => if a = c then some 0 else (findChar c rest).map (· + 1)

/-- `str::rfind` for a one-character pattern: index of the last occurrence. -/
def rfindChar (c : Char) : List Char → Option Nat
  | [] => none
  | a :: rest =>
    match rfindChar c rest with
    | some i => some (i + 1)
    | none => if a = c then some 0 else none

/-- `VfsHandler::split_off_first_item` (lib.rs lines 135-150).  The
`found.is_none_or(|found| found <= found_slash)` guard is rendered by the
inner match. -/
def split_off_first_item (windows : Bool) (s : List Char) :
    List Char × Option (List Char) :=
  let found₀ := findChar (mainSeparator windows) s
  let found :=
    if windows then
      match findChar '/' s, found₀ with
      | some foundSlash, none => some foundSlash
      | some foundSlash, some f =>
        if f ≤ foundSlash then some foundSlash else some f
      | none, f => f
    else found₀
  match found with
  | some pos => (s.take pos, some (s.drop (pos + 1)))
  | none => (s, none)

/-- `VfsHandler::split_off_last_item` (lib.rs lines 152-167), with the
`found.is_none_or(|found| found >= found_slash)` guard. -/
def split_off_last_item (windows : Bool) (s : List Char) :
    Option (List Char) × List Char :=
  let found₀ := rfindChar (mainSeparator windows) s
  let found :=
    if windows then
      match rfindChar '/' s, found₀ with
      | some foundSlash, none => some foundSlash
      | some foundSlash, some f =>
        if f ≥ foundSlash then some foundSlash else some f
      | none, f => f
    else found₀
  match found with
  | some pos => (some (s.take pos), s.drop (pos + 1))
  | none => (none, s)

/-- `std::path::Component`, restricted to the Unix variants (no `Prefix`). -/
inductive Component where
  | rootDir
  | curDir
  | parentDir
  | normal (name : List Char)
deriving DecidableEq

/-- Split a character list at every occurrence of `c`, keeping empty chunks
(the behaviour of splitting a path string on its separator). -/
def splitOnSep (c : Char) : List Char → List (List Char)
  | [] => [[]]
  | a :: rest =>
    if a = c then [] :: splitOnSep c rest
    else
      match splitOnSep c rest with
      | [] => [[a]]
      | p :: ps => (a :: p) :: ps

/-- One piece of a split path as a `Component`: empty pieces and interior `.`
pieces are dropped, `..` is `ParentDir`, anything else is `Normal`. -/
def pieceToComponent (p : List Char) : Option Component :=
  if p = [] then none
  else if p = ['.'] then none
  else if p = ['.', '.'] then some Component.parentDir
  else some (Component.normal p)

/-- `Path::has_root` on Unix: the path starts with `'/'`. -/
def hasRoot (s : List Char) : Bool := s.head? = some '/'

/-- Whether `Path::components` emits a leading `CurDir`: the path starts with
`"."` followed by nothing or a separator (and has no root). -/
def startsWithCurDir : List Char → Bool
  | [] => false
  | x :: rest => x = '.' && (rest.isEmpty || rest.head? = some '/')

/-- The components of a path with its optional leading root/cur-dir marker
already removed. -/
def relComponents (s : List Char) : List Component :=
  (splitOnSep '/' s).filterMap pieceToComponent

/-- `Path::components` on Unix, normalizing as Rust does: repeated separators
collapse, interior `.` pieces vanish, a trailing separator is ignored. -/
def components (s : List Char) : List Component :=
  if hasRoot s then Component.rootDir :: relComponents s
  else if startsWithCurDir s then Component.curDir :: relComponents s
  else relComponents s

/-- The common-prefix loop of `path_relative_to` (lib.rs lines 181-189): peek
both iterators and advance while the heads are equal; return both
remainders. -/
def consumeCommon : List Component → List Component →
    List Component × List Component
  | a :: fromRest, b :: toRest =>
    if a = b then consumeCommon fromRest toRest
    else (a :: fromRest, b :: toRest)
  | fromRest, toRest => (fromRest, toRest)

/-- The first output loop of `path_relative_to` (lib.rs lines 192-196): one
`".."` plus a separator per remaining component. -/
def dotsSegments (sep : Char) (toRest : List Component) : List Char :=
  (toRest.map fun _ => '.' :: '.' :: [sep]).flatten

/-- The second output loop of `path_relative_to` (lib.rs lines 199-208):
append each remaining `Normal` component, separated once a first one has been
emitted. -/
def appendNormals (sep : Char) : List Component → Bool → List Char
  | [], _ => []
  | Component.normal name :: rest, needsSep =>
    (if needsSep then [sep] else []) ++ name ++ appendNormals sep rest true
  | _ :: rest, needsSep => appendNormals sep rest needsSep

/-- `path_relative_to` (lib.rs lines 170-210): the roots must match, the
common prefix is consumed, the remainder of the second argument becomes `..`
segments and the remaining `Normal` components of the first argument are
appended. -/
def path_relative_to (fromPath toPath : List Char) (sep : Char) :
    Option (List Char) :=
  match components fromPath, components toPath with
  | a :: fromRest, b :: toRest =>
    if a = b then
      let rests := consumeCommon fromRest toRest
      some (dotsSegments sep rests.2 ++ appendNormals sep rests.1 false)
    else none
  | _, _ => none

/-- `PathBuf::push`'s separator test on Unix: the buffer is nonempty and its
last byte is not a separator. -/
def needSepAfter (p : List Char) : Bool :=
  match p.getLast? with
  | some c => c != '/'
  | none => false

/-- `Path::join` on Unix: an absolute argument replaces the path, otherwise it
is appended after a separator when one is needed. -/
def rustPathJoin (p name : List Char) : List Char :=
  if hasRoot name then name
  else p ++ (if needSepAfter p then ['/'] else []) ++ name

/-- `VfsHandler::join` (lib.rs lines 111-113): the std join, rewrapped through
`unchecked_abs_path` (Unix platform). -/
def join (p name : List Char) : List Char :=
  unchecked_abs_path false (rustPathJoin p name)

/-- One step of resolving a component list against a stack of directory
names: `Normal` pushes, `ParentDir` pops, root/cur-dir markers are no-ops. -/
def resolveStep (acc : List (List Char)) : Component → List (List Char)
  | Component.normal n => acc ++ [n]
  | Component.parentDir => acc.dropLast
  | _ => acc

/-- The location a path string denotes, as the stack of directory names left
after lexically resolving `.` and `..`; two absolute paths reach the same
file exactly when these agree. -/
def resolvedComponents (s : List Char) : List (List Char) :=
  (components s).foldl resolveStep []

/-- Length of the longest common prefix of two lists. -/
def lcpLen : List Component → List Component → Nat
  | a :: as, b :: bs => if a = b then lcpLen as bs + 1 else 0
  | _, _ => 0

/-- The names of the `Normal` components of a list, in order. -/
def normalNames : List Component → List (List Char)
  | [] => []
  | Component.normal n :: rest => n :: normalNames rest
  | _ :: rest => normalNames rest

/-- Intercalate a separator between a list of names. -/
def joinNamesWithSep (sep : Char) : List (List Char) → List Char
  | [] => []
  | [n] => n
  | n :: rest => n ++ sep :: joinNamesWithSep sep rest

/-- The specification's description of `path_relative_to`, stated from the
spec's words: absent exactly when the very first (root) components are
missing or differ; otherwise the longest shared component prefix is consumed,
every remaining component of the second argument becomes one `..` segment
with a trailing separator, and the remaining `Normal` components of the first
argument follow, joined by separators. -/
def path_relative_to_spec (fromPath toPath : List Char) (sep : Char) :
    Option (List Char) :=
  match components fromPath, components toPath with
  | a :: fromRest, b :: toRest =>
    if a = b then
      let k := lcpLen fromRest toRest
      some ((List.replicate (toRest.length - k) ('.' :: '.' :: [sep])).flatten
        ++ joinNamesWithSep sep (normalNames (fromRest.drop k)))
    else none
  | _, _ => none

/-- A well-formed path-component name: nonempty, separator-free and not one
of the dot components.  Exactly the strings `Path::components` yields as
`Normal` names. -/
def goodName (n : List Char) : Prop :=
  n ≠ [] ∧ '/' ∉ n ∧ n ≠ ['.'] ∧ n ≠ ['.', '.']

/-- A reference-counted value: an allocation identity plus the string it
holds.  Two `Arc`s are the very same allocation exactly when their `ptr`
agrees. -/
structure Arc where
  ptr : Nat
  val : List Char
deriving DecidableEq

/-- `Cow<'_, NormalizedPath>` as `normalize_path` returns it: either borrowed
from the input (nothing changed, nothing allocated) or a freshly allocated
owned value. -/
inductive CowPath where
  | borrowed
  | owned (arc : Arc)
deriving DecidableEq

/-- Collapse runs of repeated separators, keeping the first of each run. -/
def collapseAux (prev : Char) : List Char → List Char
  | [] => []
  | a :: rest =>
    if prev = '/' ∧ a = '/' then collapseAux a rest
    else a :: collapseAux a rest

/-- Modelled from the spec: the byte-level change `NormalizedPath::normalize`
(in the absent `normalized_path.rs`) may make — collapsing redundant
separators so that paths the OS considers identical compare equal. -/
def normalizeStr : List Char → List Char
  | [] => []
  | a :: rest => a :: collapseAux a rest

/-- Modelled from the spec: `NormalizedPath::normalize` (in the absent
`normalized_path.rs`) returns `Cow::Borrowed` exactly when normalization does
not change the bytes, and otherwise a freshly allocated owned copy (a `ptr`
different from the input's). -/
def normalize_path (p : Arc) : CowPath :=
  if normalizeStr p.val = p.val then CowPath.borrowed
  else CowPath.owned ⟨p.ptr + 1, normalizeStr p.val⟩

/-- Modelled from the spec: `NormalizedPath::new_arc` casts the `Arc` without
copying — the identity on the allocation. -/
def NormalizedPath.new_arc (p : Arc) : Arc := p

/-- `VfsHandler::normalize_rc_path` (lib.rs lines 75-81): on a borrowed
result the input `Arc` is simply cast; an owned result is returned as is. -/
def normalize_rc_path (p : Arc) : Arc :=
  match normalize_path p with
  | CowPath.borrowed => NormalizedPath.new_arc p
  | CowPath.owned o => o

theorem splitOnSep_ne_nil (c : Char) (s : List Char) : splitOnSep c s ≠ [] := by
  cases s with
  | nil => simp [splitOnSep]
  | cons a rest =>
    unfold splitOnSep
    by_cases h : a = c
    · simp [h]
    · simp only [h, if_false]
      cases splitOnSep c rest <;> simp

theorem splitOnSep_append_sep (c : Char) (a b : List Char) :
    splitOnSep c (a ++ c :: b) = splitOnSep c a ++ splitOnSep c b := by
  induction a with
  | nil => simp [splitOnSep]
  | cons x xs ih =>
    by_cases h : x = c
    · simp [splitOnSep, h, ih]
    · rcases hxs : splitOnSep c xs with _ | ⟨p, ps⟩
      · exact absurd hxs (splitOnSep_ne_nil c xs)
      · simp [splitOnSep, h, ih, hxs]

theorem relComponents_nil : relComponents [] = [] := rfl

theorem relComponents_append_sep (a b : List Char) :
    relComponents (a ++ '/' :: b) = relComponents a ++ relComponents b := by
  unfold relComponents
  rw [splitOnSep_append_sep, List.filterMap_append]

theorem relComponents_append_last (a : List Char) :
    relComponents (a ++ ['/']) = relComponents a := by
  have h := relComponents_append_sep a []
  simpa [relComponents_nil] using h

theorem hasRoot_ne_nil {s : List Char} (h : hasRoot s = true) : s ≠ [] := by
  intro he
  subst he
  simp [hasRoot] at h

theorem hasRoot_head {s : List Char} (h : hasRoot s = true) :
    ∃ t, s = '/' :: t := by
  cases s with
  | nil => simp [hasRoot] at h
  | cons x xs =>
    simp [hasRoot] at h
    exact ⟨xs, by rw [h]⟩

theorem hasRoot_append {a : List Char} (h : a ≠ []) (b : List Char) :
    hasRoot (a ++ b) = hasRoot a := by
  cases a with
  | nil => exact absurd rfl h
  | cons x xs => simp [hasRoot]

theorem components_rooted {s : List Char} (h : hasRoot s = true) :
    components s = Component.rootDir :: relComponents s := by
  simp [components, h]

theorem components_append_sep {s : List Char} (h : hasRoot s = true)
    (b : List Char) :
    components (s ++ '/' :: b) = components s ++ relComponents b := by
  obtain ⟨t, rfl⟩ := hasRoot_head h
  rw [components_rooted h,
    components_rooted (s := '/' :: t ++ '/' :: b) (by simp [hasRoot]),
    show ('/' :: t) ++ '/' :: b = '/' :: (t ++ '/' :: b) from rfl]
  have hrel : relComponents ('/' :: (t ++ '/' :: b)) =
      relComponents ('/' :: t) ++ relComponents b := by
    have h2 := relComponents_append_sep ('/' :: t) b
    simpa using h2
  rw [hrel]
  rfl

theorem startsWithCurDir_append_last {a : List Char} (h : a ≠ []) :
    startsWithCurDir (a ++ ['/']) = startsWithCurDir a := by
  cases a with
  | nil => exact absurd rfl h
  | cons x rest =>
    cases rest with
    | nil => simp [startsWithCurDir]
    | cons y t => simp [startsWithCurDir]

theorem components_append_last {a : List Char} (h : a ≠ []) :
    components (a ++ ['/']) = components a := by
  unfold components
  rw [relComponents_append_last, startsWithCurDir_append_last h,
    hasRoot_append h]

theorem hasRoot_rustPathJoin {p r : List Char} (hp : hasRoot p = true)
    (hr : hasRoot r = false) : hasRoot (rustPathJoin p r) = true := by
  unfold rustPathJoin
  simp only [hr, Bool.false_eq_true, if_false]
  obtain ⟨t, rfl⟩ := hasRoot_head hp
  simp [hasRoot]

theorem components_cons_sep (r : List Char) :
    components ('/' :: r) = Component.rootDir :: relComponents r := by
  rw [components_rooted (s := '/' :: r) (by simp [hasRoot])]
  have h := relComponents_append_sep [] r
  simpa [relComponents_nil] using h

theorem components_rustPathJoin {p r : List Char} (hp : hasRoot p = true)
    (hr : hasRoot r = false) :
    components (rustPathJoin p r) = components p ++ relComponents r := by
  unfold rustPathJoin needSepAfter
  simp only [hr, Bool.false_eq_true, if_false]
  cases hl : p.getLast? with
  | none => exact absurd (List.getLast?_eq_none_iff.mp hl) (hasRoot_ne_nil hp)
  | some c =>
    by_cases hc : c = '/'
    · subst hc
      simp only [bne_self_eq_false, Bool.false_eq_true, if_false,
        List.append_nil]
      have hne := hasRoot_ne_nil hp
      have hsplit : ∃ a, p = a ++ ['/'] := by
        refine ⟨p.dropLast, ?_⟩
        have hlast : p.getLast hne = '/' := by
          have h2 := List.getLast?_eq_getLast p hne
          rw [hl] at h2
          exact (Option.some.inj h2).symm
        rw [← hlast]
        exact (List.dropLast_append_getLast hne).symm
      obtain ⟨a, rfl⟩ := hsplit
      by_cases ha : a = []
      · subst ha
        rw [show ([] ++ ['/'] : List Char) ++ r = '/' :: r from rfl,
          components_cons_sep, components_rooted hp]
        rfl
      · have hane : a ≠ [] := ha
        have hroot_a : hasRoot a = true := by
          rw [← hasRoot_append hane ['/'], hp]
        calc components ((a ++ ['/']) ++ r)
            = components (a ++ '/' :: r) := by
              rw [List.append_assoc]; rfl
          _ = components a ++ relComponents r :=
              components_append_sep hroot_a r
          _ = components (a ++ ['/']) ++ relComponents r := by
              rw [components_append_last hane]
    · have hbne : (c != '/') = true := bne_iff_ne.mpr hc
      simp only [hbne, if_true]
      rw [List.append_assoc, show ['/'] ++ r = '/' :: r from rfl]
      exact components_append_sep hp r

theorem consumeCommon_eq_drop :
    ∀ (a b : List Component),
      consumeCommon a b = (a.drop (lcpLen a b), b.drop (lcpLen a b))
  | [], b => by simp [consumeCommon, lcpLen]
  | a :: as, [] => by simp [consumeCommon, lcpLen]
  | a :: as, b :: bs => by
    unfold consumeCommon lcpLen
    by_cases h : a = b
    · simp [h, consumeCommon_eq_drop as bs]
    · simp [h]

theorem lcpLen_take_eq :
    ∀ (a b : List Component), a.take (lcpLen a b) = b.take (lcpLen a b)
  | [], b => by simp [lcpLen]
  | a :: as, [] => by simp [lcpLen]
  | a :: as, b :: bs => by
    unfold lcpLen
    by_cases h : a = b
    · simp [h, lcpLen_take_eq as bs]
    · simp [h]

theorem dotsSegments_eq_replicate (sep : Char) (l : List Component) :
    dotsSegments sep l =
      (List.replicate l.length ('.' :: '.' :: [sep])).flatten := by
  unfold dotsSegments
  congr 1
  induction l with
  | nil => rfl
  | cons x xs ih => simp [ih, List.replicate_succ]

theorem appendNormals_eq (sep : Char) :
    ∀ (l : List Component) (b : Bool),
      appendNormals sep l b =
        (if b = true ∧ normalNames l ≠ [] then [sep] else []) ++
          joinNamesWithSep sep (normalNames l)
  | [], b => by simp [appendNormals, normalNames, joinNamesWithSep]
  | Component.normal n :: rest, b => by
    rw [show appendNormals sep (Component.normal n :: rest) b =
        (if b = true then [sep] else []) ++ n ++ appendNormals sep rest true
      from rfl]
    rw [appendNormals_eq sep rest true]
    rw [show normalNames (Component.normal n :: rest) = n :: normalNames rest
      from rfl]
    rcases hnr : normalNames rest with _ | ⟨m, ms⟩
    · simp [joinNamesWithSep]
    · rw [show joinNamesWithSep sep (n :: m :: ms) =
          n ++ sep :: joinNamesWithSep sep (m :: ms) from rfl]
      simp [List.append_assoc]
  | Component.rootDir :: rest, b => by
    rw [show appendNormals sep (Component.rootDir :: rest) b =
        appendNormals sep rest b from rfl,
      show normalNames (Component.rootDir :: rest) = normalNames rest from rfl]
    exact appendNormals_eq sep rest b
  | Component.curDir :: rest, b => by
    rw [show appendNormals sep (Component.curDir :: rest) b =
        appendNormals sep rest b from rfl,
      show normalNames (Component.curDir :: rest) = normalNames rest from rfl]
    exact appendNormals_eq sep rest b
  | Component.parentDir :: rest, b => by
    rw [show appendNormals sep (Component.parentDir :: rest) b =
        appendNormals sep rest b from rfl,
      show normalNames (Component.parentDir :: rest) = normalNames rest
      from rfl]
    exact appendNormals_eq sep rest b

theorem stripSuffixChar_eq_none {c : Char} {s : List Char}
    (h : s.getLast? ≠ some c) : stripSuffixChar c s = none := by
  unfold stripSuffixChar
  cases hl : s.getLast? with
  | none => rfl
  | some a =>
    have hac : a ≠ c := fun he => h (hl.trans (by rw [he]))
    simp [hac]

theorem stripSuffixChar_append_self (c : Char) (s : List Char) :
    stripSuffixChar c (s ++ [c]) = some s := by
  simp [stripSuffixChar, List.getLast?_concat, List.dropLast_concat]

theorem foldl_resolveStep_normals (names : List (List Char)) :
    ∀ acc, List.foldl resolveStep acc (names.map Component.normal) =
      acc ++ names := by
  induction names with
  | nil => intro acc; simp
  | cons n ns ih =>
    intro acc
    rw [List.map_cons, List.foldl_cons,
      show resolveStep acc (Component.normal n) = acc ++ [n] from rfl, ih]
    simp

theorem foldl_resolveStep_parents (extra : List (List Char)) :
    ∀ acc : List (List Char),
      List.foldl resolveStep (acc ++ extra)
        (List.replicate extra.length Component.parentDir) = acc := by
  induction extra using List.reverseRecOn with
  | nil => intro acc; simp
  | append_singleton ys y ih =>
    intro acc
    rw [List.length_append, List.length_singleton, List.replicate_succ,
      List.foldl_cons,
      show resolveStep (acc ++ (ys ++ [y])) Component.parentDir =
        (acc ++ (ys ++ [y])).dropLast from rfl,
      ← List.append_assoc, List.dropLast_concat]
    exact ih acc

theorem splitOnSep_no_sep {c : Char} :
    ∀ {n : List Char}, c ∉ n → splitOnSep c n = [n]
  | [], _ => rfl
  | x :: xs, h => by
    have hx : x ≠ c := fun he => h (by rw [he]; exact List.mem_cons_self c xs)
    have hxs : c ∉ xs := fun hm => h (List.mem_cons_of_mem x hm)
    unfold splitOnSep
    rw [if_neg hx, splitOnSep_no_sep hxs]

theorem pieceToComponent_of_goodName {n : List Char} (h : goodName n) :
    pieceToComponent n = some (Component.normal n) := by
  obtain ⟨h1, _, h3, h4⟩ := h
  simp [pieceToComponent, h1, h3, h4]

theorem relComponents_single {n : List Char} (h : goodName n) :
    relComponents n = [Component.normal n] := by
  unfold relComponents
  rw [splitOnSep_no_sep h.2.1, List.filterMap_cons,
    pieceToComponent_of_goodName h]
  rfl

theorem relComponents_joinNames :
    ∀ names : List (List Char), (∀ n ∈ names, goodName n) →
      relComponents (joinNamesWithSep '/' names) = names.map Component.normal
  | [], _ => rfl
  | [n], h => by
    rw [show joinNamesWithSep '/' [n] = n from rfl,
      relComponents_single (h n (by simp))]
    rfl
  | n :: m :: ms, h => by
    rw [show joinNamesWithSep '/' (n :: m :: ms) =
        n ++ '/' :: joinNamesWithSep '/' (m :: ms) from rfl,
      relComponents_append_sep, relComponents_single (h n (by simp)),
      relComponents_joinNames (m :: ms) (fun x hx => h x (by simp [hx]))]
    rfl

theorem relComponents_dots :
    ∀ (m : Nat) (rest : List Char),
      relComponents
          ((List.replicate m ('.' :: '.' :: ['/'])).flatten ++ rest) =
        List.replicate m Component.parentDir ++ relComponents rest
  | 0, rest => by simp
  | m + 1, rest => by
    rw [List.replicate_succ, List.flatten_cons, List.append_assoc,
      show ('.' :: '.' :: ['/']) ++
          ((List.replicate m ('.' :: '.' :: ['/'])).flatten ++ rest) =
        ['.', '.'] ++
          '/' :: ((List.replicate m ('.' :: '.' :: ['/'])).flatten ++ rest)
      from rfl,
      relComponents_append_sep, relComponents_dots m rest,
      List.replicate_succ]
    rfl

theorem mem_splitOnSep_not_mem (c : Char) :
    ∀ (s : List Char), ∀ p ∈ splitOnSep c s, c ∉ p
  | [], p, hp => by
    simp only [splitOnSep, List.mem_singleton] at hp
    subst hp
    simp
  | x :: xs, p, hp => by
    unfold splitOnSep at hp
    by_cases h : x = c
    · rw [if_pos h] at hp
      rcases List.mem_cons.mp hp with rfl | hp2
      · simp
      · exact mem_splitOnSep_not_mem c xs p hp2
    · rw [if_neg h] at hp
      rcases hsx : splitOnSep c xs with _ | ⟨q, qs⟩
      · exact absurd hsx (splitOnSep_ne_nil c xs)
      · rw [hsx] at hp
        rcases List.mem_cons.mp hp with rfl | hp2
        · intro hc
          rcases List.mem_cons.mp hc with rfl | hcq
          · exact h rfl
          · have hq : c ∉ q :=
              mem_splitOnSep_not_mem c xs q (by rw [hsx]; simp)
            exact hq hcq
        · exact mem_splitOnSep_not_mem c xs p (by rw [hsx]; simp [hp2])

theorem relComponents_mem_cases {s : List Char} {x : Component}
    (hx : x ∈ relComponents s) :
    x = Component.parentDir ∨
      ∃ n, x = Component.normal n ∧ goodName n := by
  unfold relComponents at hx
  obtain ⟨p, hp, hpc⟩ := List.mem_filterMap.mp hx
  unfold pieceToComponent at hpc
  by_cases h1 : p = []
  · simp [h1] at hpc
  · by_cases h2 : p = ['.']
    · simp [h1, h2] at hpc
    · by_cases h3 : p = ['.', '.']
      · rw [if_neg h1, if_neg h2, if_pos h3] at hpc
        exact Or.inl (Option.some.inj hpc).symm
      · rw [if_neg h1, if_neg h2, if_neg h3] at hpc
        exact Or.inr ⟨p, (Option.some.inj hpc).symm,
          h1, mem_splitOnSep_not_mem '/' s p hp, h2, h3⟩

theorem allNormal_eq_map {l : List Component}
    (h : ∀ x ∈ l, ∃ n, x = Component.normal n) :
    l = (normalNames l).map Component.normal := by
  induction l with
  | nil => rfl
  | cons x xs ih =>
    obtain ⟨n, rfl⟩ := h x (by simp)
    rw [show normalNames (Component.normal n :: xs) = n :: normalNames xs
      from rfl, List.map_cons]
    rw [← ih (fun y hy => h y (by simp [hy]))]

theorem resolved_unchecked {s : List Char} (h : hasRoot s = true) :
    resolvedComponents (unchecked_abs_path false s) = resolvedComponents s := by
  unfold unchecked_abs_path strip_separator_suffix
  simp only [Bool.false_eq_true, if_false, mainSeparator]
  cases hl : s.getLast? with
  | none => rw [stripSuffixChar_eq_none (by rw [hl]; intro hc; cases hc)]
  | some c =>
    by_cases hc : c = '/'
    · subst hc
      have hne := hasRoot_ne_nil h
      have hsplit : ∃ a, s = a ++ ['/'] := by
        refine ⟨s.dropLast, ?_⟩
        have hlast : s.getLast hne = '/' := by
          have h2 := List.getLast?_eq_getLast s hne
          rw [hl] at h2
          exact (Option.some.inj h2).symm
        rw [← hlast]
        exact (List.dropLast_append_getLast hne).symm
      obtain ⟨a, rfl⟩ := hsplit
      rw [stripSuffixChar_append_self]
      by_cases ha : a = []
      · subst ha
        rfl
      · unfold resolvedComponents
        rw [components_append_last ha]
    · rw [stripSuffixChar_eq_none
        (by rw [hl]; intro h2; exact hc (Option.some.inj h2))]

/-- C2: evaluating the default `is_case_sensitive` on both platforms: the
code returns the `cfg!(target_os = "windows")` flag itself, true on Windows
and false on every other platform — the opposite of the claimed behaviour
(sensitive everywhere except Windows). -/
theorem C2_is_case_sensitive_eval :
    is_case_sensitive false = false ∧ is_case_sensitive true = true := by
  decide

/-- C3: on Windows, `split_off_first_item "a\b/c"` splits at the `'/'` at
index 3 even though the `'\'` at index 1 occurs first, and
`split_off_last_item "a/b\c"` splits at the `'/'` at index 1 even though the
`'\'` at index 3 occurs last — the mixed-separator guards are inverted, so
the code contradicts the claim (and the intent of its own comment). -/
theorem C3_split_items_eval :
    split_off_first_item true (chars "a\\b/c") =
      (chars "a\\b", some (chars "c")) ∧
    split_off_last_item true (chars "a/b\\c") =
      (some (chars "a"), chars "b\\c") := by
  decide

/-- C4: counterexample — `unchecked_abs_path_from_uri` performs no stripping,
so the `AbsPath` it constructs from `"/foo/"` carries a trailing separator,
contradicting the claim that every constructor strips one. -/
theorem C4_counterexample :
    (unchecked_abs_path_from_uri (chars "/foo/")).getLast? = some '/' := by
  decide

/-- C4 (amended): `unchecked_abs_path` strips one trailing separator when the
input ends with one and returns inputs without a trailing separator
unchanged, on both platforms; `unchecked_abs_path_from_uri` wraps its input
unchanged, trailing separator included. -/
theorem C4_amended_strip (w : Bool) (s : List Char)
    (h : s.getLast? ≠ some '/' ∧ s.getLast? ≠ some '\\') :
    unchecked_abs_path w (s ++ [mainSeparator w]) = s ∧
    unchecked_abs_path w s = s ∧
    unchecked_abs_path_from_uri (s ++ [mainSeparator w]) =
      s ++ [mainSeparator w] := by
  refine ⟨?_, ?_, rfl⟩
  · unfold unchecked_abs_path strip_separator_suffix
    cases w with
    | false => simp [stripSuffixChar_append_self]
    | true => simp [stripSuffixChar_append_self]
  · unfold unchecked_abs_path strip_separator_suffix
    cases w with
    | false => simp [stripSuffixChar_eq_none h.1, mainSeparator]
    | true =>
      simp [stripSuffixChar_eq_none h.1, stripSuffixChar_eq_none h.2,
        mainSeparator]

/-- C4 (amended), witnessed at `"/foo"` on the Unix platform. -/
theorem C4_amended_strip_witness :
    unchecked_abs_path false (chars "/foo" ++ [mainSeparator false]) =
      chars "/foo" ∧
    unchecked_abs_path false (chars "/foo") = chars "/foo" ∧
    unchecked_abs_path_from_uri (chars "/foo" ++ [mainSeparator false]) =
      chars "/foo" ++ [mainSeparator false] :=
  C4_amended_strip false (chars "/foo") (by decide)

/-- C6: the ten literal cases of `path_relative_to` for the fixed first
argument `/foo/bar/baz`, exactly as the crate's own test states them. -/
theorem C6_literal_cases :
    path_relative_to (chars "/foo/bar/baz") (chars "/foo/bar") '/' =
      some (chars "baz") ∧
    path_relative_to (chars "/foo/bar/baz") (chars "/foo/bar/") '/' =
      some (chars "baz") ∧
    path_relative_to (chars "/foo/bar/baz") (chars "/foo/") '/' =
      some (chars "bar/baz") ∧
    path_relative_to (chars "/foo/bar/baz") (chars "/foo") '/' =
      some (chars "bar/baz") ∧
    path_relative_to (chars "/foo/bar/baz") (chars "/") '/' =
      some (chars "foo/bar/baz") ∧
    path_relative_to (chars "/foo/bar/baz") (chars "/bar") '/' =
      some (chars "../foo/bar/baz") ∧
    path_relative_to (chars "/foo/bar/baz") (chars "/foo/other") '/' =
      some (chars "../bar/baz") ∧
    path_relative_to (chars "/foo/bar/baz") (chars "/foo/other/other2") '/' =
      some (chars "../../bar/baz") ∧
    path_relative_to (chars "/foo/bar/baz") (chars "/foo/bar/other") '/' =
      some (chars "../baz") ∧
    path_relative_to (chars "/foo/bar/baz") (chars "/foo/bar/other/other2")
      '/' = some (chars "../../baz") := by
  decide

/-- C7: the root edge cases — with `AbsPath::new("/")` as the first argument,
an empty second argument yields `None`, the root itself yields the empty
string, and `"/foo"` yields `"../"` with its trailing separator kept. -/
theorem C7_root_edge_cases :
    path_relative_to (chars "/") (chars "") '/' = none ∧
    path_relative_to (chars "/") (chars "/") '/' = some (chars "") ∧
    path_relative_to (chars "/") (chars "/foo") '/' = some (chars "../") := by
  decide

/-- C9: joining the empty name is the identity on every path that does not
end with a separator: the std join appends exactly one trailing separator,
which `unchecked_abs_path` strips again. -/
theorem C9_join_empty_name (p : List Char) (h : p.getLast? ≠ some '/') :
    join p [] = p := by
  unfold join rustPathJoin needSepAfter
  cases hl : p.getLast? with
  | none =>
    have hp : p = [] := List.getLast?_eq_none_iff.mp hl
    subst hp
    rfl
  | some c =>
    have hc : c ≠ '/' := fun he => h (hl.trans (by rw [he]))
    have hbne : (c != '/') = true := bne_iff_ne.mpr hc
    simp only [hasRoot, List.head?, hl, hbne, if_true, List.append_nil]
    unfold unchecked_abs_path strip_separator_suffix
    simp [stripSuffixChar_append_self, mainSeparator]

/-- C9, witnessed at `"/foo"`. -/
theorem C9_join_empty_name_witness : join (chars "/foo") [] = chars "/foo" :=
  C9_join_empty_name (chars "/foo") (by decide)

/-- C10: `unchecked_abs_path` applied to the one-separator root string strips
its only character, representing the filesystem root as the empty
`AbsPath`, on both platforms. -/
theorem C10_root_strips_to_empty :
    unchecked_abs_path false (chars "/") = chars "" ∧
    unchecked_abs_path true (chars "/") = chars "" := by
  decide

/-- C8: when normalization is a no-op — `normalize_path` returns a borrowed
value — `normalize_rc_path` returns the original shared value itself: the
same allocation (`ptr`) holding the same bytes, with no copy made. -/
theorem C8_normalize_rc_path_identity (p : Arc)
    (h : normalize_path p = CowPath.borrowed) :
    normalize_rc_path p = p := by
  unfold normalize_rc_path
  rw [h]
  rfl

/-- C8, witnessed at an `Arc` holding the already-normal path `"/a/b"`. -/
theorem C8_normalize_rc_path_identity_witness :
    normalize_rc_path ⟨5, chars "/a/b"⟩ = ⟨5, chars "/a/b"⟩ :=
  C8_normalize_rc_path_identity ⟨5, chars "/a/b"⟩ (by decide)

theorem mem_of_mem_normalNames :
    ∀ {l : List Component} {n : List Char},
      n ∈ normalNames l → Component.normal n ∈ l
  | [], _, h => absurd h (by simp [normalNames])
  | Component.normal m :: rest, n, h => by
    rw [show normalNames (Component.normal m :: rest) = m :: normalNames rest
      from rfl] at h
    rcases List.mem_cons.mp h with rfl | h2
    · exact List.mem_cons_self _ _
    · exact List.mem_cons_of_mem _ (mem_of_mem_normalNames h2)
  | Component.rootDir :: rest, n, h => by
    rw [show normalNames (Component.rootDir :: rest) = normalNames rest
      from rfl] at h
    exact List.mem_cons_of_mem _ (mem_of_mem_normalNames h)
  | Component.curDir :: rest, n, h => by
    rw [show normalNames (Component.curDir :: rest) = normalNames rest
      from rfl] at h
    exact List.mem_cons_of_mem _ (mem_of_mem_normalNames h)
  | Component.parentDir :: rest, n, h => by
    rw [show normalNames (Component.parentDir :: rest) = normalNames rest
      from rfl] at h
    exact List.mem_cons_of_mem _ (mem_of_mem_normalNames h)

theorem normalNames_of_map (names : List (List Char)) :
    normalNames (names.map Component.normal) = names := by
  induction names with
  | nil => rfl
  | cons n ns ih =>
    rw [List.map_cons,
      show normalNames (Component.normal n :: ns.map Component.normal) =
        n :: normalNames (ns.map Component.normal) from rfl, ih]

theorem hasRoot_of_good_head {n : List Char} (hg : goodName n)
    (rest : List Char) : hasRoot (n ++ rest) = false := by
  rcases n with _ | ⟨c, cs⟩
  · exact absurd rfl hg.1
  · have hc : c ≠ '/' :=
      fun he => hg.2.1 (by rw [he]; exact List.mem_cons_self '/' cs)
    simp [hasRoot, hc]

theorem hasRoot_joinNames {names : List (List Char)}
    (h : ∀ n ∈ names, goodName n) :
    hasRoot (joinNamesWithSep '/' names) = false := by
  match names with
  | [] => rfl
  | [n] =>
    have hg := hasRoot_of_good_head (h n (by simp)) []
    rw [List.append_nil] at hg
    exact hg
  | n :: m :: ms =>
    exact hasRoot_of_good_head (h n (by simp))
      ('/' :: joinNamesWithSep '/' (m :: ms))

theorem relOutput_eq (sep : Char) (fr tr : List Component) :
    dotsSegments sep (consumeCommon fr tr).2 ++
      appendNormals sep (consumeCommon fr tr).1 false =
    (List.replicate (tr.length - lcpLen fr tr)
        ('.' :: '.' :: [sep])).flatten ++
      joinNamesWithSep sep (normalNames (fr.drop (lcpLen fr tr))) := by
  rw [consumeCommon_eq_drop]
  simp only [dotsSegments_eq_replicate, appendNormals_eq, List.length_drop]
  simp

/-- C5: `path_relative_to` agrees pointwise with `path_relative_to_spec`, the
claim's description: the result is absent exactly when the very first (root)
components are missing or differ, and otherwise the longest shared component
prefix is consumed, each remaining component of the second argument becomes
one `..` segment with a trailing separator, and the remaining `Normal`
components of the first argument follow, joined by separators. -/
theorem C5_path_relative_to_spec_agrees (fromPath toPath : List Char)
    (sep : Char) :
    path_relative_to fromPath toPath sep =
      path_relative_to_spec fromPath toPath sep := by
  unfold path_relative_to path_relative_to_spec
  rcases hf : components fromPath with _ | ⟨a, fr⟩ <;>
    rcases ht : components toPath with _ | ⟨b, tr⟩
  · rfl
  · rfl
  · rfl
  · show (if a = b then
        some (dotsSegments sep (consumeCommon fr tr).2 ++
          appendNormals sep (consumeCommon fr tr).1 false)
      else none) =
      (if a = b then
        some ((List.replicate (tr.length - lcpLen fr tr)
            ('.' :: '.' :: [sep])).flatten ++
          joinNamesWithSep sep (normalNames (fr.drop (lcpLen fr tr))))
      else none)
    by_cases h : a = b
    · rw [if_pos h, if_pos h]
      exact congrArg some (relOutput_eq sep fr tr)
    · rw [if_neg h, if_neg h]

/-- C1: counterexample — with `from = "/a"` and `to = "/a/b"` (absolute, same
root), the computed relative path is `"../"`; joining it onto `from`, as the
claim reads, gives `"/a/.."`, which resolves to the root and not to `to`. -/
theorem C1_counterexample :
    (path_relative_to (chars "/a") (chars "/a/b") '/').map
        (fun r => resolvedComponents (join (chars "/a") r)) ≠
      some (resolvedComponents (chars "/a/b")) := by
  decide

/-- C1 (amended): the round trip holds with the argument roles swapped — the
result of `path_relative_to(from, to)` reaches `from` when starting at
directory `to`: for absolute `fromPath` and `toPath` (which necessarily
share the root component) without `..` components, `path_relative_to` yields
a relative path which, joined onto `toPath`, resolves to the same location
as `fromPath`. -/
theorem C1_amended_roundtrip (fromPath toPath : List Char)
    (hf : hasRoot fromPath = true) (ht : hasRoot toPath = true)
    (hfp : Component.parentDir ∉ components fromPath)
    (htp : Component.parentDir ∉ components toPath) :
    ∃ r, path_relative_to fromPath toPath '/' = some r ∧
      resolvedComponents (join toPath r) = resolvedComponents fromPath := by
  have hcf := components_rooted hf
  have hct := components_rooted ht
  set f := relComponents fromPath with hfdef
  set t := relComponents toPath with htdef
  have hfall : ∀ x ∈ f, ∃ n, x = Component.normal n ∧ goodName n := by
    intro x hx
    rcases relComponents_mem_cases hx with rfl | hn
    · exact absurd (by rw [hcf]; exact List.mem_cons_of_mem _ hx) hfp
    · exact hn
  have htall : ∀ x ∈ t, ∃ n, x = Component.normal n ∧ goodName n := by
    intro x hx
    rcases relComponents_mem_cases hx with rfl | hn
    · exact absurd (by rw [hct]; exact List.mem_cons_of_mem _ hx) htp
    · exact hn
  obtain ⟨nf, hfd, hnf_good⟩ :
      ∃ ns : List (List Char),
        f.drop (lcpLen f t) = ns.map Component.normal ∧
        ∀ n ∈ ns, goodName n := by
    refine ⟨normalNames (f.drop (lcpLen f t)), ?_, ?_⟩
    · exact allNormal_eq_map (fun x hx => ((hfall x (by
        rw [← List.take_append_drop (lcpLen f t) f]
        exact List.mem_append_right _ hx)).elim fun n hn => ⟨n, hn.1⟩))
    · intro n hn
      have h1 : Component.normal n ∈ f := by
        rw [← List.take_append_drop (lcpLen f t) f]
        refine List.mem_append_right _ ?_
        exact mem_of_mem_normalNames hn
      obtain ⟨m, hm, hg⟩ := hfall _ h1
      have hnm := Component.normal.inj hm
      subst hnm
      exact hg
  obtain ⟨nt, htd⟩ :
      ∃ ns : List (List Char),
        t.drop (lcpLen f t) = ns.map Component.normal := by
    refine ⟨normalNames (t.drop (lcpLen f t)), ?_⟩
    exact allNormal_eq_map (fun x hx => ((htall x (by
      rw [← List.take_append_drop (lcpLen f t) t]
      exact List.mem_append_right _ hx)).elim fun n hn => ⟨n, hn.1⟩))
  obtain ⟨nc, hfc⟩ :
      ∃ ns : List (List Char),
        f.take (lcpLen f t) = ns.map Component.normal := by
    refine ⟨normalNames (f.take (lcpLen f t)), ?_⟩
    exact allNormal_eq_map (fun x hx => ((hfall x (by
      rw [← List.take_append_drop (lcpLen f t) f]
      exact List.mem_append_left _ hx)).elim fun n hn => ⟨n, hn.1⟩))
  have htake_eq : t.take (lcpLen f t) = nc.map Component.normal := by
    rw [← hfc]
    exact (lcpLen_take_eq f t).symm
  refine ⟨dotsSegments '/' (t.drop (lcpLen f t)) ++
    appendNormals '/' (f.drop (lcpLen f t)) false, ?_, ?_⟩
  · unfold path_relative_to
    rw [hcf, hct]
    simp [consumeCommon_eq_drop]
  · have hr_eq : dotsSegments '/' (t.drop (lcpLen f t)) ++
        appendNormals '/' (f.drop (lcpLen f t)) false =
        (List.replicate (t.drop (lcpLen f t)).length
          ('.' :: '.' :: ['/'])).flatten ++ joinNamesWithSep '/' nf := by
      rw [dotsSegments_eq_replicate, appendNormals_eq, hfd]
      simp [normalNames_of_map]
    rw [hr_eq]
    have hroot_r : hasRoot
        ((List.replicate (t.drop (lcpLen f t)).length
          ('.' :: '.' :: ['/'])).flatten ++ joinNamesWithSep '/' nf) =
        false := by
      cases hdt : (t.drop (lcpLen f t)).length with
      | zero =>
        rw [List.replicate_zero, List.flatten_nil, List.nil_append]
        exact hasRoot_joinNames hnf_good
      | succ m =>
        rw [List.replicate_succ, List.flatten_cons, List.append_assoc]
        simp [hasRoot]
    unfold join
    rw [resolved_unchecked (hasRoot_rustPathJoin ht hroot_r)]
    unfold resolvedComponents
    rw [components_rustPathJoin ht hroot_r, hcf, hct,
      relComponents_dots, relComponents_joinNames nf hnf_good]
    have hlen : (t.drop (lcpLen f t)).length = nt.length := by
      rw [htd, List.length_map]
    rw [hlen]
    have hsplit_t : t = nc.map Component.normal ++ nt.map Component.normal := by
      conv_lhs => rw [← List.take_append_drop (lcpLen f t) t]
      rw [htake_eq, htd]
    have hsplit_f : f = nc.map Component.normal ++ nf.map Component.normal := by
      conv_lhs => rw [← List.take_append_drop (lcpLen f t) f]
      rw [hfc, hfd]
    rw [hsplit_t, hsplit_f]
    simp only [List.cons_append, List.foldl_cons]
    simp only [List.foldl_append, foldl_resolveStep_normals,
      foldl_resolveStep_parents, List.nil_append]

/-- C1 (amended), witnessed at `fromPath = "/a/b"`, `toPath = "/a/c"`: the
relative path is `"../b"` and `"/a/c"` joined with `"../b"` resolves to
`"/a/b"`. -/
theorem C1_amended_roundtrip_witness :
    ∃ r, path_relative_to (chars "/a/b") (chars "/a/c") '/' = some r ∧
      resolvedComponents (join (chars "/a/c") r) =
        resolvedComponents (chars "/a/b") :=
  C1_amended_roundtrip (chars "/a/b") (chars "/a/c") (by decide) (by decide)
    (by decide) (by decide)

end Vfs
